import Mathlib

/-!
Verification of the metamorph agent core: the text-mutation engine
(`file_editor` tool), the safety governor (`LoopProtection`) and the
conversation orchestration loop, shallowly embedded from the Go source
(`internal/agent/tools/git_operations_tool.go` file-editor section and
`internal/agent/agent.go`).  File contents are modelled as `List Char`
(Go strings are byte sequences; all contents involved in the claims are
ASCII, where bytes and runes coincide).  The filesystem, as seen by one
call, is the state of the file at the request's path: `Option (List Char)`,
`none` meaning the path does not exist.
-/

namespace Metamorph

/-- `listStartsWith p s` holds when `p` is a leading segment of `s`
(the test Go's `strings.Index` performs at each candidate position). -/
def listStartsWith : List Char → List Char → Bool
  | [], _ => true
  | _ :: _, [] => false
  | a :: as, b :: bs => a = b && listStartsWith as bs

theorem listStartsWith_iff (p s : List Char) :
    listStartsWith p s = true ↔ ∃ t, s = p ++ t := by
  induction p generalizing s with
  | nil => simp [listStartsWith]
  | cons a as ih =>
    cases s with
    | nil =>
      simp [listStartsWith]
    | cons b bs =>
      simp only [listStartsWith, Bool.and_eq_true, decide_eq_true_eq, ih,
        List.cons_append, List.cons.injEq]
      constructor
      · rintro ⟨rfl, t, rfl⟩; exact ⟨t, rfl, rfl⟩
      · rintro ⟨t, rfl, rfl⟩; exact ⟨rfl, t, rfl⟩

/-- Embedding of Go `strings.Index` on rune lists, in split form: the
decomposition of `s` around the leftmost occurrence of `old` —
`some (pre, suf)` with `s = pre ++ old ++ suf` and `pre` shortest — or
`none` when `old` does not occur in `s`. -/
def splitFirst? (old : List Char) : List Char → Option (List Char × List Char)
  | [] => if listStartsWith old [] then some ([], []) else none
  | c :: rest =>
    if listStartsWith old (c :: rest) then some ([], (c :: rest).drop old.length)
    else (splitFirst? old rest).map fun pr => (c :: pr.1, pr.2)

theorem splitFirst?_nil (old : List Char) (hold : old ≠ []) :
    splitFirst? old [] = none := by
  cases old with
  | nil => exact absurd rfl hold
  | cons a as => simp [splitFirst?, listStartsWith]

theorem splitFirst?_eq_some (old : List Char) :
    ∀ s pre suf, splitFirst? old s = some (pre, suf) → s = pre ++ old ++ suf := by
  intro s
  induction s with
  | nil =>
    intro pre suf h
    simp only [splitFirst?] at h
    split at h
    case isTrue hp =>
      rw [listStartsWith_iff] at hp
      obtain ⟨t, ht⟩ := hp
      obtain ⟨rfl, rfl⟩ : old = [] ∧ t = [] := List.append_eq_nil.mp ht.symm
      simp only [Option.some.injEq, Prod.mk.injEq] at h
      obtain ⟨rfl, rfl⟩ := h
      rfl
    case isFalse =>
      exact absurd h (by simp)
  | cons c rest ih =>
    intro pre suf h
    simp only [splitFirst?] at h
    split at h
    case isTrue hp =>
      rw [listStartsWith_iff] at hp
      obtain ⟨t, ht⟩ := hp
      simp only [Option.some.injEq, Prod.mk.injEq] at h
      obtain ⟨rfl, rfl⟩ := h
      rw [ht, List.nil_append, List.drop_left]
    case isFalse =>
      cases hsp : splitFirst? old rest with
      | none => rw [hsp] at h; simp at h
      | some pr =>
        obtain ⟨p, sf⟩ := pr
        rw [hsp] at h
        simp only [Option.map_some', Option.some.injEq, Prod.mk.injEq] at h
        obtain ⟨rfl, rfl⟩ := h
        have hr := ih p sf hsp
        simp [hr]

theorem splitFirst?_suf_lt (old : List Char) (hold : old ≠ []) (s pre suf : List Char)
    (h : splitFirst? old s = some (pre, suf)) : suf.length < s.length := by
  have hs := splitFirst?_eq_some old s pre suf h
  have hpos : 0 < old.length := List.length_pos.mpr hold
  rw [hs]
  simp only [List.length_append]
  omega

/-- Embedding of Go `strings.Count` (number of non-overlapping instances of
`old`, scanning left to right), fuel-bounded; fuel `s.length + 1` always
suffices for nonempty `old`. -/
def countAux (old : List Char) : Nat → List Char → Nat
  | 0, _ => 0
  | fuel + 1, s =>
    match splitFirst? old s with
    | none => 0
    | some (_, suf) => countAux old fuel suf + 1

/-- `countOcc old s` — Go `strings.Count(s, old)` for nonempty `old`. -/
def countOcc (old s : List Char) : Nat := countAux old (s.length + 1) s

theorem countAux_fuel_irrel (old : List Char) (hold : old ≠ []) :
    ∀ n s f₁ f₂, s.length ≤ n → s.length < f₁ → s.length < f₂ →
      countAux old f₁ s = countAux old f₂ s := by
  intro n
  induction n with
  | zero =>
    intro s f₁ f₂ hn h1 h2
    have hs : s = [] := List.eq_nil_of_length_eq_zero (Nat.le_zero.mp hn)
    subst hs
    obtain ⟨k, rfl⟩ : ∃ k, f₁ = k + 1 := ⟨f₁ - 1, by omega⟩
    obtain ⟨m, rfl⟩ : ∃ m, f₂ = m + 1 := ⟨f₂ - 1, by omega⟩
    simp [countAux, splitFirst?_nil old hold]
  | succ n ih =>
    intro s f₁ f₂ hn h1 h2
    obtain ⟨k, rfl⟩ : ∃ k, f₁ = k + 1 := ⟨f₁ - 1, by omega⟩
    obtain ⟨m, rfl⟩ : ∃ m, f₂ = m + 1 := ⟨f₂ - 1, by omega⟩
    simp only [countAux]
    cases hsp : splitFirst? old s with
    | none => rfl
    | some pr =>
      obtain ⟨p, sf⟩ := pr
      have hlt := splitFirst?_suf_lt old hold s p sf hsp
      have := ih sf k m (by omega) (by omega) (by omega)
      simp [this]

theorem countOcc_of_none (old s : List Char) (h : splitFirst? old s = none) :
    countOcc old s = 0 := by
  simp [countOcc, countAux, h]

theorem countOcc_of_some (old : List Char) (hold : old ≠ []) (s pre suf : List Char)
    (h : splitFirst? old s = some (pre, suf)) :
    countOcc old s = countOcc old suf + 1 := by
  have hlt := splitFirst?_suf_lt old hold s pre suf h
  have h1 : countOcc old s = countAux old s.length suf + 1 := by
    simp only [countOcc, countAux, h]
  have h2 : countAux old s.length suf = countOcc old suf := by
    unfold countOcc
    exact countAux_fuel_irrel old hold s.length suf s.length (suf.length + 1)
      (by omega) (by omega) (by omega)
  rw [h1, h2]

/-- Embedding of Go `strings.ReplaceAll`: every non-overlapping occurrence of
`old`, scanning left to right, is replaced by `new`; fuel-bounded, fuel
`s.length + 1` suffices for nonempty `old` (the only way `replaceInFile`
invokes it). -/
def replaceAllAux (old new : List Char) : Nat → List Char → List Char
  | 0, s => s
  | fuel + 1, s =>
    match splitFirst? old s with
    | none => s
    | some (pre, suf) => pre ++ new ++ replaceAllAux old new fuel suf

/-- `replaceAllGo old new s` — Go `strings.ReplaceAll(s, old, new)` for
nonempty `old`. -/
def replaceAllGo (old new s : List Char) : List Char :=
  replaceAllAux old new (s.length + 1) s

theorem replaceAllAux_fuel_irrel (old new : List Char) (hold : old ≠ []) :
    ∀ n s f₁ f₂, s.length ≤ n → s.length < f₁ → s.length < f₂ →
      replaceAllAux old new f₁ s = replaceAllAux old new f₂ s := by
  intro n
  induction n with
  | zero =>
    intro s f₁ f₂ hn h1 h2
    have hs : s = [] := List.eq_nil_of_length_eq_zero (Nat.le_zero.mp hn)
    subst hs
    obtain ⟨k, rfl⟩ : ∃ k, f₁ = k + 1 := ⟨f₁ - 1, by omega⟩
    obtain ⟨m, rfl⟩ : ∃ m, f₂ = m + 1 := ⟨f₂ - 1, by omega⟩
    simp [replaceAllAux, splitFirst?_nil old hold]
  | succ n ih =>
    intro s f₁ f₂ hn h1 h2
    obtain ⟨k, rfl⟩ : ∃ k, f₁ = k + 1 := ⟨f₁ - 1, by omega⟩
    obtain ⟨m, rfl⟩ : ∃ m, f₂ = m + 1 := ⟨f₂ - 1, by omega⟩
    simp only [replaceAllAux]
    cases hsp : splitFirst? old s with
    | none => rfl
    | some pr =>
      obtain ⟨p, sf⟩ := pr
      have hlt := splitFirst?_suf_lt old hold s p sf hsp
      have := ih sf k m (by omega) (by omega) (by omega)
      simp [this]

/-- Embedding of the `limit > 0` loop of `replaceInFile`
(git_operations_tool.go lines 536-556): replace up to `limit` leftmost
non-overlapping occurrences of `old` by `new`, returning how many
replacements were made together with the rewritten content (the loop's
`parts` joined with the untouched remainder). -/
def replaceLoop (old new : List Char) : Nat → List Char → Nat × List Char
  | 0, remaining => (0, remaining)
  | limit + 1, remaining =>
    match splitFirst? old remaining with
    | none => (0, remaining)
    | some (pre, suf) =>
      let r := replaceLoop old new limit suf
      (r.1 + 1, pre ++ new ++ r.2)

theorem replaceLoop_count (old new : List Char) (hold : old ≠ []) :
    ∀ f s, (replaceLoop old new f s).1 = min f (countOcc old s) := by
  intro f
  induction f with
  | zero => intro s; simp [replaceLoop]
  | succ f ih =>
    intro s
    simp only [replaceLoop]
    cases hsp : splitFirst? old s with
    | none => simp [countOcc_of_none old s hsp]
    | some pr =>
      obtain ⟨p, sf⟩ := pr
      simp only
      rw [ih sf, countOcc_of_some old hold s p sf hsp, Nat.succ_min_succ]

theorem replaceLoop_length (old new : List Char) :
    ∀ f s, (replaceLoop old new f s).2.length + (replaceLoop old new f s).1 * old.length
      = s.length + (replaceLoop old new f s).1 * new.length := by
  intro f
  induction f with
  | zero => intro s; simp [replaceLoop]
  | succ f ih =>
    intro s
    simp only [replaceLoop]
    cases hsp : splitFirst? old s with
    | none => simp
    | some pr =>
      obtain ⟨p, sf⟩ := pr
      have hs := splitFirst?_eq_some old s p sf hsp
      have hih := ih sf
      simp only [List.length_append, Nat.succ_mul, hs]
      omega

theorem replaceLoop_eq_self_of_count_zero (old new : List Char) (f : Nat) (s : List Char)
    (h : (replaceLoop old new f s).1 = 0) : (replaceLoop old new f s).2 = s := by
  cases f with
  | zero => rfl
  | succ f =>
    simp only [replaceLoop] at h ⊢
    cases hsp : splitFirst? old s with
    | none => rfl
    | some pr => rw [hsp] at h; simp at h

theorem replaceLoop_ne_self_of_count_pos (old new : List Char)
    (hne : old ≠ new) (f : Nat) (s : List Char)
    (h : (replaceLoop old new f s).1 ≠ 0) : (replaceLoop old new f s).2 ≠ s := by
  cases f with
  | zero => exact absurd rfl h
  | succ f =>
    cases hsp : splitFirst? old s with
    | none => simp [replaceLoop, hsp] at h
    | some pr =>
      obtain ⟨p, sf⟩ := pr
      have hs := splitFirst?_eq_some old s p sf hsp
      intro heq
      simp only [replaceLoop, hsp] at heq
      -- heq : p ++ new ++ (replaceLoop old new f sf).2 = s
      have hlen := replaceLoop_length old new f sf
      -- first: the lengths of old and new must agree
      have hLeq : (p ++ new ++ (replaceLoop old new f sf).2).length = s.length := by
        rw [heq]
      rw [hs] at hLeq
      simp only [List.length_append] at hLeq
      have hsame : new.length = old.length := by
        have h1 : (replaceLoop old new f sf).2.length + (replaceLoop old new f sf).1 * old.length
            = sf.length + (replaceLoop old new f sf).1 * new.length := hlen
        have hmul : ((replaceLoop old new f sf).1 + 1) * new.length
            = ((replaceLoop old new f sf).1 + 1) * old.length := by
          simp only [Nat.succ_mul]
          omega
        exact Nat.eq_of_mul_eq_mul_left (Nat.succ_pos _) hmul
      -- then the first replaced occurrence exhibits a difference
      rw [hs] at heq
      have hcancel : new ++ (replaceLoop old new f sf).2 = old ++ sf := by
        have := heq
        rw [List.append_assoc, List.append_assoc] at this
        exact List.append_cancel_left this
      have : new = old := by
        have h1 : (new ++ (replaceLoop old new f sf).2).take new.length = new :=
          List.take_left _ _
        have h2 : (old ++ sf).take old.length = old := List.take_left _ _
        rw [hcancel, hsame, h2] at h1
        exact h1.symm
      exact hne this.symm

/-- `strings.ReplaceAll` agrees with the bounded loop run with fuel exactly
the number of occurrences. -/
theorem replaceAllGo_eq_replaceLoop (old new : List Char) (hold : old ≠ []) :
    ∀ n s, s.length ≤ n →
      replaceAllGo old new s = (replaceLoop old new (countOcc old s) s).2 := by
  intro n
  induction n with
  | zero =>
    intro s hn
    have hs : s = [] := List.eq_nil_of_length_eq_zero (Nat.le_zero.mp hn)
    subst hs
    simp [replaceAllGo, replaceAllAux, countOcc_of_none old [] (splitFirst?_nil old hold),
      replaceLoop, splitFirst?_nil old hold]
  | succ n ih =>
    intro s hn
    simp only [replaceAllGo, replaceAllAux]
    cases hsp : splitFirst? old s with
    | none =>
      rw [countOcc_of_none old s hsp]
      rfl
    | some pr =>
      obtain ⟨p, sf⟩ := pr
      have hlt := splitFirst?_suf_lt old hold s p sf hsp
      rw [countOcc_of_some old hold s p sf hsp]
      simp only [replaceLoop, hsp]
      have h1 : replaceAllAux old new s.length sf = replaceAllGo old new sf := by
        unfold replaceAllGo
        exact replaceAllAux_fuel_irrel old new hold s.length sf s.length (sf.length + 1)
          (by omega) (by omega) (by omega)
      rw [h1, ih sf (by omega)]

/-! ## The file_editor tool (git_operations_tool.go, file-editor section) -/

/-- The Go `(string, error)` return value of a file_editor handler:
`ok msg` is a nil-error return carrying `msg`, `err msg` a non-nil error. -/
inductive EditResult where
  | ok (msg : String)
  | err (msg : String)
  deriving DecidableEq, Repr

/-- `ensureFileExists` (git_operations_tool.go lines 495-506): creates an
empty file (and any missing parent directories) when the path does not
exist; an existing file is left untouched. -/
def ensureFileExists : Option (List Char) → Option (List Char)
  | none => some []
  | some c => some c

/-- `replaceInFile` (git_operations_tool.go lines 509-575): literal
replacement of `old` by `new`, bounded by `limit` (a Go `int`: `limit > 0`
bounds the number of replacements, any other value replaces all
occurrences).  Input is the state of the file at the path; the result is
the file state after the call together with the Go return value. -/
def replaceInFile (file : Option (List Char)) (old new : List Char) (limit : Int) :
    Option (List Char) × EditResult :=
  if old = [] then (file, .err "old_str cannot be empty")
  else if old = new then
    (file, .ok "No changes needed - old_str and new_str are identical")
  else
    let fileContent := (ensureFileExists file).getD []
    let cn : Nat × List Char :=
      if 0 < limit then
        let r := replaceLoop old new limit.toNat fileContent
        if 0 < r.1 then r else (0, fileContent)
      else
        (countOcc old fileContent, replaceAllGo old new fileContent)
    if fileContent = cn.2 then (some fileContent, .err "old_str not found in file")
    else (some cn.2,
      .ok ("Successfully replaced " ++ toString cn.1 ++ " occurrence(s)"))

/-- `createFile` (git_operations_tool.go lines 471-492): refuses to
overwrite an existing file, returning a nil-error notice; otherwise writes
`content` as the full file body (parent directories created as needed). -/
def createFile (file : Option (List Char)) (content : List Char) :
    Option (List Char) × EditResult :=
  match file with
  | some c =>
    (some c, .ok "File already exists. Use append, prepend, or replace modes to modify it.")
  | none => (some content, .ok "Successfully created file")

/-- The `create` arm of the `EditFileContent` mode switch
(git_operations_tool.go lines 450-454): the dispatcher rejects an empty
`content` before `createFile` is ever reached. -/
def editFileCreate (file : Option (List Char)) (content : List Char) :
    Option (List Char) × EditResult :=
  if content = [] then (file, .err "cannot create an empty file, content is required")
  else createFile file content

/-- Go `strings.Split(s, "\n")` on rune lists: the list of lines of `s`
(always nonempty; splitting the empty string yields one empty line). -/
def splitLines : List Char → List (List Char)
  | [] => [[]]
  | c :: rest =>
    if c = '\n' then [] :: splitLines rest
    else
      match splitLines rest with
      | [] => [[c]]
      | l :: ls => (c :: l) :: ls

/-- Go `strings.Join(lines, "\n")` on rune lists. -/
def joinLines : List (List Char) → List Char
  | [] => []
  | [l] => l
  | l :: ls => l ++ '\n' :: joinLines ls

/-- `insertAtLine` (git_operations_tool.go lines 683-731): insert `content`
as a new line at 1-based position `lineNumber` (a Go `int`).  Fails when
`lineNumber < 1` (before any filesystem access) or when it exceeds the
line count plus one (after the file has been auto-created if absent). -/
def insertAtLine (file : Option (List Char)) (content : List Char) (lineNumber : Int) :
    Option (List Char) × EditResult :=
  if lineNumber < 1 then (file, .err "line number must be at least 1")
  else
    let existing := (ensureFileExists file).getD []
    let lines := splitLines existing
    if (lines.length : Int) + 1 < lineNumber then
      (some existing,
        .err ("line number " ++ toString lineNumber ++ " exceeds file length ("
          ++ toString lines.length ++ " lines)"))
    else
      let n := lineNumber.toNat
      let newLines :=
        if n = 1 then content :: lines
        else if (lines.length : Int) < lineNumber then lines ++ [content]
        else lines.take (n - 1) ++ content :: lines.drop (n - 1)
      (some (joinLines newLines),
        .ok ("Successfully inserted content at line " ++ toString lineNumber))

/-! ## The regex_replace mode

The Go implementation delegates matching to the external `regexp`
package (RE2).  A *matcher* models one compiled pattern, as documented for
that library: applied at a position, it reports either that no match starts
there, or the matched text and the remainder of the input. -/

/-- One compiled regular expression, modelled from the Go `regexp`
package semantics (external library): the leftmost-match attempt at the
current position. -/
abbrev Matcher := List Char → Option (List Char × List Char)

/-- The pattern `foo\d+` of the end-to-end scenario, modelled from Go
regexp semantics: literal `foo` followed by a maximal nonempty run of
ASCII digits. -/
def matchFooDigits : Matcher
  | 'f' :: 'o' :: 'o' :: rest =>
    let ds := rest.takeWhile Char.isDigit
    if ds = [] then none else some ('f' :: 'o' :: 'o' :: ds, rest.drop ds.length)
  | _ => none

/-- Leftmost match of a matcher in `s`: the text before the match, the
match itself and the remainder (Go `Regexp.FindStringIndex` scanning). -/
def findFirst (mt : Matcher) : List Char → Option (List Char × List Char × List Char)
  | [] => (mt []).map fun r => ([], r.1, r.2)
  | c :: rest =>
    match mt (c :: rest) with
    | some r => some ([], r.1, r.2)
    | none => (findFirst mt rest).map fun r => (c :: r.1, r.2.1, r.2.2)

/-- Go `Regexp.ReplaceAllString(s, new)` for a replacement containing no
`$` expansion: rewrite every leftmost non-overlapping match to `new`;
fuel-bounded (fuel `s.length + 1` suffices when matches are nonempty). -/
def reReplaceAllAux (mt : Matcher) (new : List Char) : Nat → List Char → List Char
  | 0, s => s
  | fuel + 1, s =>
    match findFirst mt s with
    | none => s
    | some (pre, _, rest) => pre ++ new ++ reReplaceAllAux mt new fuel rest

def reReplaceAll (mt : Matcher) (new s : List Char) : List Char :=
  reReplaceAllAux mt new (s.length + 1) s

/-- Number of matches found by Go `Regexp.FindAllString(s, -1)`. -/
def reCountAux (mt : Matcher) : Nat → List Char → Nat
  | 0, _ => 0
  | fuel + 1, s =>
    match findFirst mt s with
    | none => 0
    | some (_, _, rest) => reCountAux mt fuel rest + 1

def reCount (mt : Matcher) (s : List Char) : Nat :=
  reCountAux mt (s.length + 1) s

/-- The `limit > 0` branch of `regexReplaceInFile` (git_operations_tool.go
lines 605-612): Go `ReplaceAllStringFunc` with a closure that rewrites a
match (via `ReplaceAllString` applied to the match itself) while
`count < limit`, and afterwards returns every later match unchanged while
the scan continues to the end. -/
def reReplaceFuncAux (mt : Matcher) (new : List Char) (limit : Nat) :
    Nat → Nat → List Char → Nat × List Char
  | 0, count, s => (count, s)
  | fuel + 1, count, s =>
    match findFirst mt s with
    | none => (count, s)
    | some (pre, m, rest) =>
      if count < limit then
        let r := reReplaceFuncAux mt new limit fuel (count + 1) rest
        (r.1, pre ++ reReplaceAll mt new m ++ r.2)
      else
        let r := reReplaceFuncAux mt new limit fuel count rest
        (r.1, pre ++ m ++ r.2)

/-- `regexReplaceInFile` (git_operations_tool.go lines 578-632) for a fixed
nonempty pattern that compiles successfully, whose semantics is `mt` (the
empty-pattern and compile-error returns precede everything modelled here
and are not reachable for such a pattern). -/
def regexReplaceInFile (mt : Matcher) (file : Option (List Char)) (new : List Char)
    (limit : Int) : Option (List Char) × EditResult :=
  let fileContent := (ensureFileExists file).getD []
  let cn : Nat × List Char :=
    if 0 < limit then
      reReplaceFuncAux mt new limit.toNat (fileContent.length + 1) 0 fileContent
    else
      (reCount mt fileContent, reReplaceAll mt new fileContent)
  if fileContent = cn.2 then (some fileContent, .err "pattern not matched in file")
  else (some cn.2,
    .ok ("Successfully replaced " ++ toString cn.1 ++ " occurrence(s)"))

/-! ## The safety governor and the conversation orchestrator (agent.go)

Times are wall-clock seconds (`Nat`); Go evaluates the rate window as
`time.Since(start).Minutes() <= 1`, i.e. at most 60 seconds.  The Go
counters are `int`s that are only ever set to 0 or 1 or incremented, so
`Nat` is faithful; the configured limits are positive in every
configuration the program builds. -/

/-- `LoopProtection` (agent.go lines 14-28): the four configured limits and
the per-session tracking counters. -/
structure LoopProtection where
  maxConsecutiveToolUses : Nat
  maxToolUsesPerMinute : Nat
  maxSessionDurationSec : Nat
  maxSameToolCalls : Nat
  consecutiveToolUses : Nat
  lastToolName : String
  sameToolCallCount : Nat
  toolUseStartTimeSec : Nat
  toolUseCount : Nat
  sessionStartTimeSec : Nat
  deriving DecidableEq, Repr

/-- `NewLoopProtection` (agent.go lines 31-46): the reference defaults. -/
def NewLoopProtection (nowSec : Nat) : LoopProtection :=
  { maxConsecutiveToolUses := 15
    maxToolUsesPerMinute := 30
    maxSessionDurationSec := 30 * 60
    maxSameToolCalls := 5
    consecutiveToolUses := 0
    lastToolName := ""
    sameToolCallCount := 0
    toolUseStartTimeSec := nowSec
    toolUseCount := 0
    sessionStartTimeSec := nowSec }

/-- The violation reasons of the three per-call governor limits, matching
the three distinct error returns of `processToolUsages`. -/
inductive Violation where
  | consecutive
  | rate
  | sameTool
  deriving DecidableEq, Repr

/-- The same-tool-streak update (agent.go lines 204-220): new last-tool
name, new streak, and whether the same-tool limit denies. -/
def sameToolUpdate (maxSame : Nat) (lastName : String) (streak : Nat) (name : String) :
    String × Nat × Bool :=
  if lastName = name then
    (lastName, streak + 1, decide (maxSame ≤ streak + 1))
  else (name, 1, false)

/-- The governor portion of the `tool_use` arm of `processToolUsages`
(agent.go lines 170-220): increment both counters, then check the
consecutive limit, the per-minute rate (resetting the window when more
than a minute has elapsed) and the same-tool streak, in that order,
returning at the first violation. -/
def governorStep (lp : LoopProtection) (name : String) (nowSec : Nat) :
    LoopProtection × Option Violation :=
  let lp1 := { lp with
    consecutiveToolUses := lp.consecutiveToolUses + 1
    toolUseCount := lp.toolUseCount + 1 }
  if lp1.maxConsecutiveToolUses < lp1.consecutiveToolUses then (lp1, some .consecutive)
  else
    let elapsed := nowSec - lp1.toolUseStartTimeSec
    if elapsed ≤ 60 ∧ lp1.maxToolUsesPerMinute ≤ lp1.toolUseCount then (lp1, some .rate)
    else
      let lp2 :=
        if 60 < elapsed then { lp1 with toolUseStartTimeSec := nowSec, toolUseCount := 1 }
        else lp1
      let u := sameToolUpdate lp2.maxSameToolCalls lp2.lastToolName lp2.sameToolCallCount name
      let lp3 := { lp2 with lastToolName := u.1, sameToolCallCount := u.2.1 }
      if u.2.2 then (lp3, some .sameTool) else (lp3, none)

/-- A content block of an assistant message (the two arms the orchestrator
distinguishes).  `nowSec` on a tool invocation is the wall-clock instant at
which the orchestrator would process it (the value `time.Since` reads). -/
inductive ContentBlock where
  | text (value : String)
  | toolUse (id name input : String) (nowSec : Nat)
  deriving DecidableEq, Repr

def ContentBlock.isToolUse : ContentBlock → Bool
  | .text _ => false
  | .toolUse _ _ _ _ => true

/-- A tool-result block: `{tool_use_id, content, is_error}`. -/
structure ToolResultBlock where
  id : String
  content : String
  isError : Bool
  deriving DecidableEq, Repr

/-- One turn of the conversation. -/
inductive Turn where
  | userText (s : String)
  | assistant (blocks : List ContentBlock)
  | toolResults (rs : List ToolResultBlock)
  deriving DecidableEq, Repr

/-- Result of scanning the content blocks of one assistant message
(the loop body of `processToolUsages`, agent.go lines 163-225).
`results` is the local `toolResults` slice at the moment the loop ends
(or the early `return` fires), `executed` the ids whose `executeTool`
call actually ran, `attempts` the number of dispatch attempts recorded
by the governor. -/
structure BatchResult where
  lp : LoopProtection
  results : List ToolResultBlock
  executed : List String
  attempts : Nat
  violation : Option Violation
  deriving Repr

/-- The block-scanning loop of `processToolUsages`.  `exec` abstracts
`executeTool` minus the id plumbing: from tool name and raw input to the
result payload and error flag (tool-not-found is one such error payload). -/
def processBlocks (exec : String → String → String × Bool) (lp : LoopProtection) :
    List ContentBlock → BatchResult
  | [] => ⟨lp, [], [], 0, none⟩
  | .text _ :: rest => processBlocks exec lp rest
  | .toolUse id name input now :: rest =>
    match governorStep lp name now with
    | (lp', some v) => ⟨lp', [], [], 1, some v⟩
    | (lp', none) =>
      let p := exec name input
      let r := processBlocks exec lp' rest
      ⟨r.lp, ⟨id, p.1, p.2⟩ :: r.results, id :: r.executed, r.attempts + 1, r.violation⟩

/-- The value `processToolUsages` hands back to `Run`: the new governor
state, the turns it appended to the conversation, whether user input is
read next, the violation (the Go `error`), plus the observations needed
by the claims. -/
structure ProcessResult where
  lp : LoopProtection
  appended : List Turn
  readUserInput : Bool
  violation : Option Violation
  executed : List String
  attempts : Nat
  deriving Repr

/-- `processToolUsages` (agent.go lines 160-234): scan the blocks; on a
governor violation return `(true, err)` — the accumulated `toolResults`
are discarded, nothing is appended; otherwise, if any tool was used,
append the results as one user turn and continue without user input. -/
def processToolUsages (exec : String → String → String × Bool) (lp : LoopProtection)
    (blocks : List ContentBlock) : ProcessResult :=
  let b := processBlocks exec lp blocks
  match b.violation with
  | some v => ⟨b.lp, [], true, some v, b.executed, b.attempts⟩
  | none =>
    if blocks.any ContentBlock.isToolUse then
      ⟨b.lp, [Turn.toolResults b.results], false, none, b.executed, b.attempts⟩
    else ⟨b.lp, [], true, none, b.executed, b.attempts⟩

/-- The orchestrator state carried across iterations of `Run`
(agent.go lines 99-142). -/
structure SessionState where
  lp : LoopProtection
  conversation : List Turn
  readUserInput : Bool
  halted : Bool
  deriving Repr

/-- Observable events of one session, used to state the governor
invariants: a reset of the consecutive-use counters (agent.go lines
116-119), a user-input read, and one governor dispatch attempt. -/
inductive Ev where
  | reset
  | inputRead (s : String)
  | attempt
  deriving DecidableEq, Repr

/-- The environment's contribution to one iteration of the `Run` loop:
the wall clock at the session-duration check, the user input delivered if
one is requested (`none` = end of input), and the completion engine's
response. -/
structure LoopIter where
  nowSec : Nat
  userInput : Option String
  response : List ContentBlock
  deriving Repr

/-- The counter reset performed when user input is about to be read
(agent.go lines 117-119). -/
def resetCounters (lp : LoopProtection) : LoopProtection :=
  { lp with consecutiveToolUses := 0, lastToolName := "", sameToolCallCount := 0 }

/-- One iteration of the `Run` loop (agent.go lines 106-139), with the
events it emits: the session-duration check, then (when requested) the
counter reset and the user-input read, then generation and
`processToolUsages`.  A `Run` error from the engine is out of scope: the
script always supplies a response. -/
def runStep (exec : String → String → String × Bool) (s : SessionState) (it : LoopIter) :
    SessionState × List Ev :=
  if s.halted then (s, [])
  else if s.lp.maxSessionDurationSec < it.nowSec - s.lp.sessionStartTimeSec then
    ({ s with halted := true }, [])
  else
    match s.readUserInput, it.userInput with
    | true, none =>
      ({ s with lp := resetCounters s.lp, halted := true }, [Ev.reset])
    | true, some u =>
      let lp1 := resetCounters s.lp
      let pr := processToolUsages exec lp1 it.response
      (⟨pr.lp,
        (s.conversation ++ [Turn.userText u, Turn.assistant it.response]) ++ pr.appended,
        pr.readUserInput, false⟩,
        Ev.reset :: Ev.inputRead u :: List.replicate pr.attempts Ev.attempt)
    | false, _ =>
      let pr := processToolUsages exec s.lp it.response
      (⟨pr.lp, (s.conversation ++ [Turn.assistant it.response]) ++ pr.appended,
        pr.readUserInput, false⟩,
        List.replicate pr.attempts Ev.attempt)

/-- Run the loop over a finite script of environment iterations. -/
def runScript (exec : String → String → String × Bool) :
    SessionState → List LoopIter → SessionState × List Ev
  | s, [] => (s, [])
  | s, it :: rest =>
    let p := runStep exec s it
    let q := runScript exec p.1 rest
    (q.1, p.2 ++ q.2)

/-- The fresh session state `Run` starts from: conversation empty, user
input requested first. -/
def initialSession (lp : LoopProtection) : SessionState :=
  ⟨lp, [], true, false⟩

/-- One event's effect on the count of dispatch attempts since the last
counter reset. -/
def asrStep (acc : Nat) : Ev → Nat
  | .reset => 0
  | .attempt => acc + 1
  | .inputRead _ => acc

/-- Number of dispatch attempts since the last counter reset in a trace
(all attempts, when no reset occurred). -/
def attemptsSinceReset (t : List Ev) : Nat := t.foldl asrStep 0

/-- Phases of the reset/read protocol: a session segment is
`reset, inputRead, attempt*`; a trailing lone `reset` (end of input)
is allowed. -/
inductive RRPhase where
  | start
  | afterReset
  | running
  deriving DecidableEq, Repr

def rrStep : RRPhase → Ev → Option RRPhase
  | .start, .reset => some .afterReset
  | .afterReset, .inputRead _ => some .running
  | .running, .attempt => some .running
  | .running, .reset => some .afterReset
  | _, _ => none

def rrStepO (o : Option RRPhase) (e : Ev) : Option RRPhase :=
  o.bind fun st => rrStep st e

/-- Validity of a trace under the reset/read protocol: every user-input
read is immediately preceded by exactly one counter reset, every reset is
followed by a read (or ends the trace at end-of-input), and attempts only
occur after a read. -/
def rrFold (t : List Ev) : Option RRPhase :=
  t.foldl rrStepO (some RRPhase.start)

/-- The same-tool streak evolution over a sequence of recorded tool names,
ignoring denials: the fold of `sameToolUpdate` from the post-reset state
(`lastToolName = ""`, streak 0). -/
def sameToolFold (maxSame : Nat) (names : List String) : String × Nat :=
  names.foldl (fun st n =>
    ((sameToolUpdate maxSame st.1 st.2 n).1, (sameToolUpdate maxSame st.1 st.2 n).2.1)) ("", 0)

/-- The same-tool streak processing as the orchestrator performs it over a
sequence of recorded tool names: stop at the first denial, reporting its
position. -/
def sameToolRunAux (maxSame : Nat) (st : String × Nat) : List String → Nat →
    (String × Nat) × Option Nat
  | [], _ => (st, none)
  | n :: rest, i =>
    if (sameToolUpdate maxSame st.1 st.2 n).2.2 then
      (((sameToolUpdate maxSame st.1 st.2 n).1, (sameToolUpdate maxSame st.1 st.2 n).2.1), some i)
    else
      sameToolRunAux maxSame
        ((sameToolUpdate maxSame st.1 st.2 n).1, (sameToolUpdate maxSame st.1 st.2 n).2.1) rest (i + 1)

/-- Length of the maximal constant run at the end of a list: the number of
trailing elements equal to the last one. -/
def trailingRun (l : List String) : Nat :=
  match l.reverse with
  | [] => 0
  | a :: rest => 1 + (rest.takeWhile (fun x => x == a)).length

/-! ## Supporting lemmas for the file-editor theorems -/

theorem ensureFileExists_eq (fs : Option (List Char)) :
    ensureFileExists fs = some (fs.getD []) := by
  cases fs <;> rfl

theorem countOcc_nil (old : List Char) (hold : old ≠ []) : countOcc old [] = 0 :=
  countOcc_of_none old [] (splitFirst?_nil old hold)

theorem replaceAllGo_nil (old new : List Char) (hold : old ≠ []) :
    replaceAllGo old new [] = [] := by
  simp [replaceAllGo, replaceAllAux, splitFirst?_nil old hold]

/-- The two branches of `replaceInFile`'s replacement computation, written
once: the pair (number of replacements, rewritten content). -/
theorem replaceInFile_eq (fs : Option (List Char)) (old new : List Char) (limit : Int)
    (h1 : old ≠ []) (h2 : old ≠ new) :
    replaceInFile fs old new limit =
      (let fileContent := fs.getD []
       let cn : Nat × List Char :=
         if 0 < limit then
           let r := replaceLoop old new limit.toNat fileContent
           if 0 < r.1 then r else (0, fileContent)
         else (countOcc old fileContent, replaceAllGo old new fileContent)
       if fileContent = cn.2 then (some fileContent, .err "old_str not found in file")
       else (some cn.2,
         .ok ("Successfully replaced " ++ toString cn.1 ++ " occurrence(s)"))) := by
  rw [replaceInFile, if_neg h1, if_neg h2, ensureFileExists_eq]
  rfl

theorem replaceAllGo_eq_self_iff (old new : List Char) (h1 : old ≠ []) (h2 : old ≠ new)
    (s : List Char) : replaceAllGo old new s = s ↔ countOcc old s = 0 := by
  rw [replaceAllGo_eq_replaceLoop old new h1 s.length s (le_refl _)]
  constructor
  · intro h
    by_contra hc
    have hcnt : (replaceLoop old new (countOcc old s) s).1 ≠ 0 := by
      rw [replaceLoop_count old new h1]
      simpa using hc
    exact replaceLoop_ne_self_of_count_pos old new h2 (countOcc old s) s hcnt h
  · intro h
    apply replaceLoop_eq_self_of_count_zero
    rw [replaceLoop_count old new h1, h]
    simp

/-- **C1** — For every file content and every `file_editor` call in
`replace` mode: an empty `old_str` fails; `old_str = new_str` succeeds as
a no-op leaving the file unchanged; otherwise with `limit = 0` every
non-overlapping occurrence (scanning left to right) is replaced —
`replaceAllGo`, the embedding of `strings.ReplaceAll` — with positive
`limit` the first `limit` such occurrences are replaced leaving the
remainder untouched — `replaceLoop`, the embedding of the bounded loop,
which makes `min limit (countOcc old C)` replacements — and the call
fails exactly when zero occurrences were replaced. -/
theorem c1_replace_mode_semantics (C old new : List Char) (limit : Int) :
    (old = [] →
      replaceInFile (some C) old new limit = (some C, .err "old_str cannot be empty")) ∧
    (old ≠ [] → old = new →
      replaceInFile (some C) old new limit
        = (some C, .ok "No changes needed - old_str and new_str are identical")) ∧
    (old ≠ [] → old ≠ new → limit = 0 →
      (countOcc old C = 0 →
        replaceInFile (some C) old new limit = (some C, .err "old_str not found in file")) ∧
      (0 < countOcc old C →
        replaceInFile (some C) old new limit
          = (some (replaceAllGo old new C),
             .ok ("Successfully replaced " ++ toString (countOcc old C)
               ++ " occurrence(s)")))) ∧
    (old ≠ [] → old ≠ new → 0 < limit →
      (countOcc old C = 0 →
        replaceInFile (some C) old new limit = (some C, .err "old_str not found in file")) ∧
      (0 < countOcc old C →
        replaceInFile (some C) old new limit
          = (some (replaceLoop old new limit.toNat C).2,
             .ok ("Successfully replaced " ++ toString (min limit.toNat (countOcc old C))
               ++ " occurrence(s)")))) := by
  refine ⟨?_, ?_, ?_, ?_⟩
  · intro h; rw [replaceInFile, if_pos h]
  · intro h1 h2; rw [replaceInFile, if_neg h1, if_pos h2]
  · intro h1 h2 hl
    subst hl
    rw [replaceInFile_eq (some C) old new 0 h1 h2]
    simp only [Option.getD_some]
    constructor
    · intro hc
      have hall : replaceAllGo old new C = C := (replaceAllGo_eq_self_iff old new h1 h2 C).mpr hc
      simp [hall]
    · intro hc
      have hall : ¬ replaceAllGo old new C = C := by
        rw [replaceAllGo_eq_self_iff old new h1 h2 C]; omega
      have : ¬ C = replaceAllGo old new C := fun h => hall h.symm
      simp [this]
  · intro h1 h2 hl
    rw [replaceInFile_eq (some C) old new limit h1 h2]
    simp only [Option.getD_some, if_pos hl]
    have hcount : (replaceLoop old new limit.toNat C).1 = min limit.toNat (countOcc old C) :=
      replaceLoop_count old new h1 limit.toNat C
    constructor
    · intro hc
      have hz : (replaceLoop old new limit.toNat C).1 = 0 := by rw [hcount, hc]; simp
      simp [hz]
    · intro hc
      have hpos : 0 < limit.toNat := by omega
      have hz : 0 < (replaceLoop old new limit.toNat C).1 := by
        rw [hcount]; omega
      have hne : (replaceLoop old new limit.toNat C).2 ≠ C :=
        replaceLoop_ne_self_of_count_pos old new h2 limit.toNat C (by omega)
      have hne' : ¬ C = (replaceLoop old new limit.toNat C).2 := fun h => hne h.symm
      simp [hl, hc, hz, hne', hcount]

/-- Witness for C1: a concrete bounded replacement, `limit = 2` on
`"aaa a"` replacing `"a"` by `"b"`. -/
theorem c1_replace_mode_semantics_witness :
    replaceInFile (some "aaa a".toList) "a".toList "b".toList 2
      = (some "bba a".toList, .ok "Successfully replaced 2 occurrence(s)") := by
  have h := ((c1_replace_mode_semantics "aaa a".toList "a".toList "b".toList 2).2.2.2
    (by decide) (by decide) (by decide)).2 (by decide)
  exact h.trans (by decide)

/-- **C6** — `replace` with `limit = 0` gives the byte-identical outcome to
first counting the non-overlapping occurrences `k` and calling with
`limit = k` (as a Go `int`): the full results, file state and reported
count included, are equal. -/
theorem c6_replace_all_eq_counted_limit (fs : Option (List Char)) (old new : List Char)
    (h1 : old ≠ []) (h2 : old ≠ new) :
    replaceInFile fs old new 0
      = replaceInFile fs old new (Int.ofNat (countOcc old (fs.getD []))) := by
  by_cases hk : countOcc old (fs.getD []) = 0
  · have h0 : Int.ofNat (countOcc old (fs.getD [])) = 0 := by simp [hk]
    rw [h0]
  · have hkpos : 0 < countOcc old (fs.getD []) := by omega
    rw [replaceInFile_eq fs old new 0 h1 h2,
      replaceInFile_eq fs old new (Int.ofNat (countOcc old (fs.getD []))) h1 h2]
    have hlimpos : (0 : Int) < Int.ofNat (countOcc old (fs.getD [])) := by
      simp only [Int.ofNat_eq_coe]; exact_mod_cast hkpos
    have htonat : (Int.ofNat (countOcc old (fs.getD []))).toNat = countOcc old (fs.getD []) := by
      simp
    simp only [lt_irrefl, if_false, if_pos hlimpos, htonat]
    have hcnt : (replaceLoop old new (countOcc old (fs.getD [])) (fs.getD [])).1
        = countOcc old (fs.getD []) := by
      rw [replaceLoop_count old new h1]; simp
    have hall : replaceAllGo old new (fs.getD [])
        = (replaceLoop old new (countOcc old (fs.getD [])) (fs.getD [])).2 :=
      replaceAllGo_eq_replaceLoop old new h1 (fs.getD []).length (fs.getD []) (le_refl _)
    rw [if_pos (by omega : 0 < (replaceLoop old new (countOcc old (fs.getD []))
      (fs.getD [])).1)]
    rw [hall, hcnt]

/-- Witness for C6 at a concrete file and search string. -/
theorem c6_replace_all_eq_counted_limit_witness :
    replaceInFile (some "aaa a".toList) "a".toList "b".toList 0
      = replaceInFile (some "aaa a".toList) "a".toList "b".toList
          (Int.ofNat (countOcc "a".toList ((some "aaa a".toList).getD []))) :=
  c6_replace_all_eq_counted_limit (some "aaa a".toList) "a".toList "b".toList
    (by decide) (by decide)

/-! ## Line splitting and `insert_at_line` -/

theorem splitLines_of_no_newline (l : List Char) (h : '\n' ∉ l) : splitLines l = [l] := by
  induction l with
  | nil => rfl
  | cons c rest ih =>
    have hc : ¬ c = '\n' := fun hh => h (by simp [hh])
    have hr : '\n' ∉ rest := fun hh => h (List.mem_cons_of_mem _ hh)
    simp only [splitLines, if_neg hc, ih hr]

theorem splitLines_append_newline (l t : List Char) (h : '\n' ∉ l) :
    splitLines (l ++ '\n' :: t) = l :: splitLines t := by
  induction l with
  | nil => simp [splitLines]
  | cons c rest ih =>
    have hc : ¬ c = '\n' := fun hh => h (by simp [hh])
    have hr : '\n' ∉ rest := fun hh => h (List.mem_cons_of_mem _ hh)
    simp only [List.cons_append, splitLines, if_neg hc, List.append_eq, ih hr]

theorem splitLines_no_newline (s : List Char) : ∀ l ∈ splitLines s, '\n' ∉ l := by
  induction s with
  | nil =>
    intro l hl
    simp only [splitLines, List.mem_singleton] at hl
    subst hl; simp
  | cons c rest ih =>
    intro l hl
    simp only [splitLines] at hl
    by_cases hc : c = '\n'
    · rw [if_pos hc] at hl
      rcases List.mem_cons.mp hl with h | h
      · subst h; simp
      · exact ih l h
    · rw [if_neg hc] at hl
      cases hsp : splitLines rest with
      | nil =>
        rw [hsp] at hl
        simp only [List.mem_singleton] at hl
        subst hl
        intro hmem
        rcases List.mem_cons.mp hmem with h' | h'
        · exact hc h'.symm
        · simp at h'
      | cons l0 ls =>
        rw [hsp] at hl
        rcases List.mem_cons.mp hl with h | h
        · subst h
          intro hmem
          rcases List.mem_cons.mp hmem with h' | h'
          · exact hc h'.symm
          · exact ih l0 (by rw [hsp]; exact List.mem_cons_self _ _) h'
        · exact ih l (by rw [hsp]; exact List.mem_cons_of_mem _ h)

theorem splitLines_joinLines : ∀ ls : List (List Char), ls ≠ [] →
    (∀ l ∈ ls, '\n' ∉ l) → splitLines (joinLines ls) = ls
  | [], h, _ => absurd rfl h
  | [l], _, hnl => by
    simp only [joinLines]
    exact splitLines_of_no_newline l (hnl l (List.mem_singleton.mpr rfl))
  | l :: l' :: ls, _, hnl => by
    have h1 : '\n' ∉ l := hnl l (List.mem_cons_self _ _)
    simp only [joinLines]
    rw [splitLines_append_newline l (joinLines (l' :: ls)) h1,
      splitLines_joinLines (l' :: ls) (by simp)
        (fun x hx => hnl x (List.mem_cons_of_mem _ hx))]

/-- The success path of `insertAtLine` on an existing file, with the new
line list written uniformly as a splice at position `L - 1`. -/
theorem insertAtLine_ok_eq (C content : List Char) (L : Int) (h1 : 1 ≤ L)
    (h2 : L ≤ ((splitLines C).length : Int) + 1) :
    insertAtLine (some C) content L
      = (some (joinLines ((splitLines C).take (L.toNat - 1)
          ++ content :: (splitLines C).drop (L.toNat - 1))),
         .ok ("Successfully inserted content at line " ++ toString L)) := by
  have hL0 : ¬ L < 1 := by omega
  have hL1 : ¬ ((splitLines C).length : Int) + 1 < L := by omega
  simp only [insertAtLine, hL0, if_false, ensureFileExists_eq, Option.getD_some, hL1]
  by_cases hone : L.toNat = 1
  · rw [if_pos hone, show L.toNat - 1 = 0 from by omega]
    simp
  · rw [if_neg hone]
    by_cases happ : ((splitLines C).length : Int) < L
    · rw [if_pos happ, show L.toNat - 1 = (splitLines C).length from by omega,
        List.take_length, List.drop_length]
    · rw [if_neg happ]

/-- **C7** — `insert_at_line` on an existing file with a single-line
`content`: for `1 ≤ L ≤ lineCount + 1` the call succeeds, the new line
list is the splice of `content` at 1-based position `L` (prepend at 1,
append at `lineCount + 1`), and for `L ≤ lineCount` the original line `L`
is found at 1-based line `L + 1` (0-based index `L`); `L < 1` and
`L > lineCount + 1` fail without mutating the file. -/
theorem c7_insert_at_line_shifts (C content : List Char) (hnl : '\n' ∉ content) (L : Int) :
    (1 ≤ L → L ≤ ((splitLines C).length : Int) + 1 →
      insertAtLine (some C) content L
        = (some (joinLines ((splitLines C).take (L.toNat - 1)
            ++ content :: (splitLines C).drop (L.toNat - 1))),
           .ok ("Successfully inserted content at line " ++ toString L)) ∧
      splitLines (((insertAtLine (some C) content L).1).getD [])
        = (splitLines C).take (L.toNat - 1) ++ content :: (splitLines C).drop (L.toNat - 1) ∧
      (L ≤ ((splitLines C).length : Int) →
        (splitLines (((insertAtLine (some C) content L).1).getD [])).get? L.toNat
          = (splitLines C).get? (L.toNat - 1))) ∧
    (L < 1 → insertAtLine (some C) content L
        = (some C, .err "line number must be at least 1")) ∧
    (((splitLines C).length : Int) + 1 < L →
      insertAtLine (some C) content L
        = (some C, .err ("line number " ++ toString L ++ " exceeds file length ("
            ++ toString (splitLines C).length ++ " lines)"))) := by
  refine ⟨?_, ?_, ?_⟩
  · intro h1 h2
    have hmain := insertAtLine_ok_eq C content L h1 h2
    have htk : L.toNat - 1 ≤ (splitLines C).length := by omega
    have hsplit : splitLines (((insertAtLine (some C) content L).1).getD [])
        = (splitLines C).take (L.toNat - 1) ++ content :: (splitLines C).drop (L.toNat - 1) := by
      rw [hmain]
      simp only [Option.getD_some]
      apply splitLines_joinLines
      · simp
      · intro x hx
        rcases List.mem_append.mp hx with h | h
        · exact splitLines_no_newline C x (List.take_subset _ _ h)
        · rcases List.mem_cons.mp h with h' | h'
          · subst h'; exact hnl
          · exact splitLines_no_newline C x (List.drop_subset _ _ h')
    refine ⟨hmain, hsplit, ?_⟩
    intro hLlen
    rw [hsplit]
    have hlen : ((splitLines C).take (L.toNat - 1)).length = L.toNat - 1 := by
      rw [List.length_take]
      omega
    rw [List.get?_append_right (by omega), hlen,
      show L.toNat - (L.toNat - 1) = 1 from by omega, List.get?_cons_succ,
      List.get?_drop, Nat.add_zero]
  · intro h
    unfold insertAtLine
    rw [if_pos h]
  · intro h
    have hL0 : ¬ L < 1 := by omega
    simp only [insertAtLine, hL0, if_false, ensureFileExists_eq, Option.getD_some,
      if_pos h]

/-- Witness for C7: inserting `"X"` at line 2 of a three-line file. -/
theorem c7_insert_at_line_shifts_witness :
    insertAtLine (some "l1\nl2\nl3".toList) "X".toList 2
      = (some "l1\nX\nl2\nl3".toList, .ok "Successfully inserted content at line 2") := by
  have h := ((c7_insert_at_line_shifts "l1\nl2\nl3".toList "X".toList (by decide) 2).1
    (by decide) (by decide)).1
  exact h.trans (by decide)

/-! ## The `create` mode -/

/-- **C8** (counterexample) — the claim promises a non-error
"already exists" notice for *any* content `C'`; with `C' = ""` the mode
dispatcher instead rejects the call with an input-validation error before
the existence check is reached (the file is still left unchanged). -/
theorem c8_create_empty_content_errs :
    editFileCreate (some ['a']) []
      = (some ['a'], .err "cannot create an empty file, content is required") := by
  decide

/-- **C8** (amended) — for every existing file content `C` and every
*non-empty* content `C'`, `create` returns the non-error "already exists"
notice and leaves the file equal to `C`. -/
theorem c8_create_never_overwrites (C Cp : List Char) (h : Cp ≠ []) :
    editFileCreate (some C) Cp
      = (some C,
         .ok "File already exists. Use append, prepend, or replace modes to modify it.") := by
  unfold editFileCreate createFile
  rw [if_neg h]

/-- Witness for the amended C8. -/
theorem c8_create_never_overwrites_witness :
    editFileCreate (some ['a']) ['b']
      = (some ['a'],
         .ok "File already exists. Use append, prepend, or replace modes to modify it.") :=
  c8_create_never_overwrites ['a'] ['b'] (by decide)

/-! ## The regex_replace scenario and the error-path file creation -/

/-- **C9** — `regex_replace` with pattern `foo\d+`, replacement `bar` and
`limit = 2` on `"foo1 foo2 foo3"` rewrites the file to `"bar bar foo3"`
and reports 2 replacements. -/
theorem c9_regex_replace_scenario :
    regexReplaceInFile matchFooDigits (some "foo1 foo2 foo3".toList) "bar".toList 2
      = (some "bar bar foo3".toList, .ok "Successfully replaced 2 occurrence(s)") := by
  decide

/-- **C10** — `replace` and `regex_replace` on a missing path first create
an empty file, and when the call then fails (search text absent, pattern
unmatched — on the just-created empty content), the empty file persists:
the error path does not restore the no-file state. -/
theorem c10_missing_file_persists_on_error (old new : List Char) (limit : Int)
    (h1 : old ≠ []) (h2 : old ≠ new) (mt : Matcher) (hmt : mt [] = none)
    (rnew : List Char) (rlimit : Int) :
    replaceInFile none old new limit = (some [], .err "old_str not found in file") ∧
    regexReplaceInFile mt none rnew rlimit
      = (some [], .err "pattern not matched in file") := by
  constructor
  · rw [replaceInFile_eq none old new limit h1 h2]
    have hc0 : countOcc old [] = 0 := countOcc_nil old h1
    by_cases hl : 0 < limit
    · have hz : (replaceLoop old new limit.toNat []).1 = 0 := by
        rw [replaceLoop_count old new h1, hc0]; simp
      simp [hl, hz]
    · simp [hl, hc0, replaceAllGo_nil old new h1]
  · have hff : findFirst mt [] = none := by simp [findFirst, hmt]
    unfold regexReplaceInFile
    simp only [ensureFileExists_eq, Option.getD_none]
    by_cases hl : 0 < rlimit
    · simp [hl, reReplaceFuncAux, hff]
    · simp [hl, reCount, reCountAux, reReplaceAll, reReplaceAllAux, hff]

/-- Witness for C10 at a concrete search string and the `foo\d+` matcher. -/
theorem c10_missing_file_persists_on_error_witness :
    replaceInFile none "a".toList "b".toList 0
        = (some [], .err "old_str not found in file") ∧
    regexReplaceInFile matchFooDigits none "bar".toList 2
        = (some [], .err "pattern not matched in file") :=
  c10_missing_file_persists_on_error "a".toList "b".toList 0 (by decide) (by decide)
    matchFooDigits (by decide) "bar".toList 2

/-! ## Governor lemmas -/

theorem governorStep_consecutive (lp : LoopProtection) (name : String) (nowSec : Nat) :
    (governorStep lp name nowSec).1.consecutiveToolUses = lp.consecutiveToolUses + 1 := by
  simp only [governorStep, sameToolUpdate]
  repeat' split
  all_goals rfl

theorem processBlocks_consecutive (exec : String → String → String × Bool) :
    ∀ (blocks : List ContentBlock) (lp : LoopProtection),
      (processBlocks exec lp blocks).lp.consecutiveToolUses
        = lp.consecutiveToolUses + (processBlocks exec lp blocks).attempts := by
  intro blocks
  induction blocks with
  | nil => intro lp; simp [processBlocks]
  | cons b rest ih =>
    intro lp
    cases b with
    | text v => simpa [processBlocks] using ih lp
    | toolUse id name input now =>
      simp only [processBlocks]
      cases hg : governorStep lp name now with
      | mk lp' vio =>
        have hc : lp'.consecutiveToolUses = lp.consecutiveToolUses + 1 := by
          have h := governorStep_consecutive lp name now
          rw [hg] at h
          exact h
        cases vio with
        | none =>
          simp only
          rw [ih lp', hc]
          omega
        | some v => simpa using hc

theorem processToolUsages_consecutive (exec : String → String → String × Bool)
    (lp : LoopProtection) (blocks : List ContentBlock) :
    (processToolUsages exec lp blocks).lp.consecutiveToolUses
      = lp.consecutiveToolUses + (processToolUsages exec lp blocks).attempts := by
  have h := processBlocks_consecutive exec blocks lp
  unfold processToolUsages
  cases hv : (processBlocks exec lp blocks).violation with
  | none =>
    by_cases ht : blocks.any ContentBlock.isToolUse <;> simp [hv, ht, h]
  | some v => simp [hv, h]

/-- **C3** — With the consecutive-use limit configured at 15 and 15
dispatch attempts already recorded since the last user input (the
governor's counter, per C2, equals that number), the 16th invocation is
denied with the consecutive-limit violation before its handler runs: no
tool of the remaining batch executes, nothing is appended, and the
orchestrator goes back to awaiting user input. -/
theorem c3_sixteenth_invocation_denied (exec : String → String → String × Bool)
    (lp : LoopProtection) (hmax : lp.maxConsecutiveToolUses = 15)
    (hcnt : lp.consecutiveToolUses = 15) (id name input : String) (now : Nat)
    (rest : List ContentBlock) :
    (processToolUsages exec lp (.toolUse id name input now :: rest)).violation
        = some .consecutive ∧
    (processToolUsages exec lp (.toolUse id name input now :: rest)).executed = [] ∧
    (processToolUsages exec lp (.toolUse id name input now :: rest)).readUserInput = true ∧
    (processToolUsages exec lp (.toolUse id name input now :: rest)).appended = [] ∧
    (processToolUsages exec lp (.toolUse id name input now :: rest)).lp.consecutiveToolUses
        = 16 := by
  have hcond : lp.maxConsecutiveToolUses < lp.consecutiveToolUses + 1 := by omega
  cases hgp : governorStep lp name now with
  | mk lp' vio =>
    have hg2 : vio = some Violation.consecutive := by
      have h : (governorStep lp name now).2 = some Violation.consecutive := by
        unfold governorStep
        simp [hcond]
      rw [hgp] at h
      exact h
    have hg1 : lp'.consecutiveToolUses = 16 := by
      have h := governorStep_consecutive lp name now
      rw [hgp] at h
      simp only at h
      omega
    subst hg2
    simp [processToolUsages, processBlocks, hgp, hg1]

/-- Witness for C3 at a concrete governor state. -/
theorem c3_sixteenth_invocation_denied_witness :
    (processToolUsages (fun _ _ => ("ok", false))
        { maxConsecutiveToolUses := 15, maxToolUsesPerMinute := 30,
          maxSessionDurationSec := 1800, maxSameToolCalls := 5,
          consecutiveToolUses := 15, lastToolName := "file_editor",
          sameToolCallCount := 1, toolUseStartTimeSec := 0, toolUseCount := 15,
          sessionStartTimeSec := 0 }
        [.toolUse "id16" "file_editor" "{}" 10]).violation = some .consecutive ∧
    (processToolUsages (fun _ _ => ("ok", false))
        { maxConsecutiveToolUses := 15, maxToolUsesPerMinute := 30,
          maxSessionDurationSec := 1800, maxSameToolCalls := 5,
          consecutiveToolUses := 15, lastToolName := "file_editor",
          sameToolCallCount := 1, toolUseStartTimeSec := 0, toolUseCount := 15,
          sessionStartTimeSec := 0 }
        [.toolUse "id16" "file_editor" "{}" 10]).executed = [] := by
  have h := c3_sixteenth_invocation_denied (fun _ _ => ("ok", false))
    { maxConsecutiveToolUses := 15, maxToolUsesPerMinute := 30,
      maxSessionDurationSec := 1800, maxSameToolCalls := 5,
      consecutiveToolUses := 15, lastToolName := "file_editor",
      sameToolCallCount := 1, toolUseStartTimeSec := 0, toolUseCount := 15,
      sessionStartTimeSec := 0 } rfl rfl "id16" "file_editor" "{}" 10 []
  exact ⟨h.1, h.2.1⟩

/-- The ids of the tool-invocation blocks of a response, in order. -/
def toolUseIds (blocks : List ContentBlock) : List String :=
  blocks.filterMap fun b => match b with
    | .toolUse id _ _ _ => some id
    | .text _ => none

theorem processBlocks_ids_of_no_violation (exec : String → String → String × Bool) :
    ∀ (blocks : List ContentBlock) (lp : LoopProtection),
      (processBlocks exec lp blocks).violation = none →
      (processBlocks exec lp blocks).results.map ToolResultBlock.id = toolUseIds blocks := by
  intro blocks
  induction blocks with
  | nil => intro lp _; simp [processBlocks, toolUseIds]
  | cons b rest ih =>
    intro lp hv
    cases b with
    | text v =>
      simp only [processBlocks] at hv ⊢
      rw [ih lp hv]
      simp [toolUseIds]
    | toolUse id name input now =>
      simp only [processBlocks] at hv ⊢
      cases hg : governorStep lp name now with
      | mk lp' vio =>
        rw [hg] at hv
        cases vio with
        | some v => simp at hv
        | none =>
          have hv' : (processBlocks exec lp' rest).violation = none := by
            simpa using hv
          simp [toolUseIds, ih lp' hv']

/-- **C4** (counterexample) — the claim promises one appended result per
invocation id *including when a governor violation occurs partway through
the batch*.  Concretely, with a consecutive limit of 1 and a batch of two
invocations, the first is dispatched (its handler runs and its result is
built) yet the violation on the second makes `processToolUsages` return
early: no `ToolResults` turn is appended at all and the first result is
discarded. -/
theorem c4_counterexample_results_dropped :
    (processToolUsages (fun _ _ => ("ok", false))
        { maxConsecutiveToolUses := 1, maxToolUsesPerMinute := 30,
          maxSessionDurationSec := 1800, maxSameToolCalls := 5,
          consecutiveToolUses := 0, lastToolName := "", sameToolCallCount := 0,
          toolUseStartTimeSec := 0, toolUseCount := 0, sessionStartTimeSec := 0 }
        [.toolUse "id1" "toolA" "{}" 0, .toolUse "id2" "toolB" "{}" 0]).appended = [] ∧
    (processToolUsages (fun _ _ => ("ok", false))
        { maxConsecutiveToolUses := 1, maxToolUsesPerMinute := 30,
          maxSessionDurationSec := 1800, maxSameToolCalls := 5,
          consecutiveToolUses := 0, lastToolName := "", sameToolCallCount := 0,
          toolUseStartTimeSec := 0, toolUseCount := 0, sessionStartTimeSec := 0 }
        [.toolUse "id1" "toolA" "{}" 0, .toolUse "id2" "toolB" "{}" 0]).executed = ["id1"] ∧
    (processToolUsages (fun _ _ => ("ok", false))
        { maxConsecutiveToolUses := 1, maxToolUsesPerMinute := 30,
          maxSessionDurationSec := 1800, maxSameToolCalls := 5,
          consecutiveToolUses := 0, lastToolName := "", sameToolCallCount := 0,
          toolUseStartTimeSec := 0, toolUseCount := 0, sessionStartTimeSec := 0 }
        [.toolUse "id1" "toolA" "{}" 0, .toolUse "id2" "toolB" "{}" 0]).violation
      = some .consecutive := by
  decide

/-- **C4** (amended) — when no governor violation occurs while processing a
response that contains at least one tool invocation, exactly one
tool-result block per invocation id is appended, as one `ToolResults`
turn, order-preserving with the invocations; when a violation occurs
partway, no `ToolResults` turn is appended and the results already
produced in that batch are discarded. -/
theorem c4_one_result_per_id_unless_violation (exec : String → String → String × Bool)
    (lp : LoopProtection) (blocks : List ContentBlock) :
    ((processBlocks exec lp blocks).violation = none →
      (processToolUsages exec lp blocks).appended
        = (if blocks.any ContentBlock.isToolUse then
            [Turn.toolResults (processBlocks exec lp blocks).results] else []) ∧
      (processBlocks exec lp blocks).results.map ToolResultBlock.id = toolUseIds blocks) ∧
    (∀ v, (processBlocks exec lp blocks).violation = some v →
      (processToolUsages exec lp blocks).appended = []) := by
  constructor
  · intro hv
    refine ⟨?_, processBlocks_ids_of_no_violation exec blocks lp hv⟩
    by_cases ht : blocks.any ContentBlock.isToolUse <;> simp [processToolUsages, hv, ht]
  · intro v hv
    simp [processToolUsages, hv]

/-- Witness for the amended C4: a violation-free batch of two invocations
separated by a text block yields exactly one `ToolResults` turn with one
result per id, in order. -/
theorem c4_one_result_per_id_unless_violation_witness :
    (processToolUsages (fun _ _ => ("ok", false)) (NewLoopProtection 0)
        [.toolUse "a1" "t1" "{}" 0, .text "hello", .toolUse "a2" "t2" "{}" 0]).appended
      = [Turn.toolResults [⟨"a1", "ok", false⟩, ⟨"a2", "ok", false⟩]] := by
  have h := (c4_one_result_per_id_unless_violation (fun _ _ => ("ok", false))
    (NewLoopProtection 0)
    [.toolUse "a1" "t1" "{}" 0, .text "hello", .toolUse "a2" "t2" "{}" 0]).1 (by decide)
  exact h.1.trans (by decide)

/-! ## The same-tool streak (C5) -/

/-- The last name of a sequence of recorded tool names, `""` when none has
been recorded yet (the governor's reset value of `LastToolName`). -/
def lastNameD (l : List String) : String := l.reverse.headD ""

theorem sameToolFold_snoc (maxSame : Nat) (l : List String) (a : String) :
    sameToolFold maxSame (l ++ [a])
      = ((sameToolUpdate maxSame (sameToolFold maxSame l).1 (sameToolFold maxSame l).2 a).1,
         (sameToolUpdate maxSame (sameToolFold maxSame l).1 (sameToolFold maxSame l).2 a).2.1) := by
  unfold sameToolFold
  rw [List.foldl_append]
  rfl

theorem trailingRun_snoc_eq (l : List String) (a : String) (h : lastNameD l = a) :
    trailingRun (l ++ [a]) = trailingRun l + 1 := by
  have hrev : (l ++ [a]).reverse = a :: l.reverse := by simp
  unfold trailingRun
  rw [hrev]
  cases hr : l.reverse with
  | nil => simp
  | cons b r =>
    have hb : b = a := by
      unfold lastNameD at h
      rw [hr] at h
      simpa using h
    subst hb
    simp [List.takeWhile_cons]
    omega

theorem trailingRun_snoc_ne (l : List String) (a : String) (h : ¬ lastNameD l = a) :
    trailingRun (l ++ [a]) = 1 := by
  have hrev : (l ++ [a]).reverse = a :: l.reverse := by simp
  unfold trailingRun
  rw [hrev]
  cases hr : l.reverse with
  | nil => simp
  | cons b r =>
    have hb : ¬ b = a := by
      unfold lastNameD at h
      rw [hr] at h
      simpa using h
    simp [List.takeWhile_cons, hb]

/-- The streak fold computes exactly (last recorded name, length of the
trailing run of that name): the streak resets to 1 on a name change and
increments by 1 on each immediate repeat. -/
theorem sameToolFold_spec (maxSame : Nat) :
    ∀ l : List String, sameToolFold maxSame l = (lastNameD l, trailingRun l) := by
  intro l
  induction l using List.reverseRecOn with
  | nil => rfl
  | append_singleton l a ih =>
    rw [sameToolFold_snoc, ih]
    have h1 : lastNameD (l ++ [a]) = a := by unfold lastNameD; simp
    unfold sameToolUpdate
    by_cases h : lastNameD l = a
    · rw [trailingRun_snoc_eq l a h]
      simp [h, h1]
    · rw [trailingRun_snoc_ne l a h]
      simp [h, h1]

theorem sameToolRunAux_none_eq_fold (maxSame : Nat) :
    ∀ (names : List String) (st : String × Nat) (i : Nat) (st' : String × Nat),
      sameToolRunAux maxSame st names i = (st', none) →
      st' = names.foldl (fun st n =>
        ((sameToolUpdate maxSame st.1 st.2 n).1, (sameToolUpdate maxSame st.1 st.2 n).2.1)) st := by
  intro names
  induction names with
  | nil =>
    intro st i st' h
    simp only [sameToolRunAux, Prod.mk.injEq] at h
    simp [h.1.symm]
  | cons n rest ih =>
    intro st i st' h
    simp only [sameToolRunAux] at h
    split at h
    · simp at h
    · rw [List.foldl_cons]
      exact ih _ (i + 1) st' h

theorem sameToolRunAux_bound (maxSame : Nat) (h2 : 2 ≤ maxSame) :
    ∀ (names : List String) (st : String × Nat) (i : Nat), st.2 < maxSame →
      (∀ st', sameToolRunAux maxSame st names i = (st', none) → st'.2 < maxSame) ∧
      (∀ st' j, sameToolRunAux maxSame st names i = (st', some j) → st'.2 = maxSame) := by
  intro names
  induction names with
  | nil =>
    intro st i hst
    constructor
    · intro st' h
      simp only [sameToolRunAux, Prod.mk.injEq] at h
      rw [← h.1]
      exact hst
    · intro st' j h
      simp [sameToolRunAux] at h
  | cons n rest ih =>
    intro st i hst
    by_cases hd : (sameToolUpdate maxSame st.1 st.2 n).2.2
    · constructor
      · intro st' h
        simp only [sameToolRunAux, if_pos hd] at h
        simp at h
      · intro st' j h
        simp only [sameToolRunAux, if_pos hd, Prod.mk.injEq] at h
        obtain ⟨hst', _⟩ := h
        rw [← hst']
        unfold sameToolUpdate at hd ⊢
        by_cases he : st.1 = n
        · simp only [if_pos he, decide_eq_true_eq] at hd ⊢
          omega
        · simp [if_neg he] at hd
    · have hlt : (sameToolUpdate maxSame st.1 st.2 n).2.1 < maxSame := by
        unfold sameToolUpdate at hd ⊢
        by_cases he : st.1 = n
        · simp only [if_pos he, decide_eq_true_eq] at hd ⊢
          omega
        · simp only [if_neg he]
          omega
      have hrec := ih ((sameToolUpdate maxSame st.1 st.2 n).1,
        (sameToolUpdate maxSame st.1 st.2 n).2.1) (i + 1) hlt
      constructor
      · intro st' h
        apply hrec.1
        simpa [sameToolRunAux, hd] using h
      · intro st' j h
        apply hrec.2 st' j
        simpa [sameToolRunAux, hd] using h

/-- **C5** (counterexample) — with the same-tool maximum configured at 1,
the first call (a name change) sets the streak to 1 = maximum yet no
denial fires, because the limit is only checked on the immediate-repeat
branch; the denial then fires on the second call at streak 2.  This
refutes "a same-tool denial fires exactly when the streak first reaches
the configured maximum". -/
theorem c5_counterexample_max_one :
    sameToolRunAux 1 ("", 0) ["a"] 0 = (("a", 1), none) ∧
    sameToolRunAux 1 ("", 0) ["a", "a"] 0 = (("a", 2), some 1) := by
  decide

/-- **C5** (amended) — for a configured maximum of at least 2 (every
configuration the program builds uses 5 or 100), over any sequence of tool
names recorded by the governor from the reset state: the streak equals the
length of the trailing run of the current name (so it resets to 1 on each
name change and increments by 1 on each immediate repeat), it stays below
the maximum while no denial fires ("not before"), and at the first denial
the streak equals the maximum exactly. -/
theorem c5_same_tool_streak_first_reach (maxSame : Nat) (hmax : 2 ≤ maxSame)
    (names : List String) :
    (∀ st, sameToolRunAux maxSame ("", 0) names 0 = (st, none) →
        st.2 = trailingRun names ∧ st.2 < maxSame) ∧
    (∀ st i, sameToolRunAux maxSame ("", 0) names 0 = (st, some i) → st.2 = maxSame) := by
  have hb := sameToolRunAux_bound maxSame hmax names ("", 0) 0 (by omega)
  constructor
  · intro st h
    refine ⟨?_, hb.1 st h⟩
    have hf := sameToolRunAux_none_eq_fold maxSame names ("", 0) 0 st h
    have hs := sameToolFold_spec maxSame names
    unfold sameToolFold at hs
    rw [hf, hs]
  · intro st i h
    exact hb.2 st i h

/-- Witness for the amended C5: three recorded names ending in a repeat. -/
theorem c5_same_tool_streak_first_reach_witness :
    trailingRun ["t1", "t2", "t2"] = 2 ∧ (2 : Nat) < 5 := by
  have h := (c5_same_tool_streak_first_reach 5 (by omega) ["t1", "t2", "t2"]).1
    ("t2", 2) (by decide)
  exact ⟨h.1.symm, h.2⟩

/-! ## The session-level counter invariant (C2) -/

theorem foldl_asr_replicate (k acc : Nat) :
    List.foldl asrStep acc (List.replicate k Ev.attempt) = acc + k := by
  induction k generalizing acc with
  | zero => simp
  | succ k ih =>
    rw [List.replicate_succ, List.foldl_cons, ih]
    simp [asrStep]
    omega

theorem attemptsSinceReset_append (t t' : List Ev) :
    attemptsSinceReset (t ++ t') = List.foldl asrStep (attemptsSinceReset t) t' := by
  unfold attemptsSinceReset
  rw [List.foldl_append]

theorem rrFold_append (t t' : List Ev) :
    rrFold (t ++ t') = List.foldl rrStepO (rrFold t) t' := by
  unfold rrFold
  rw [List.foldl_append]

theorem foldl_rr_replicate (k : Nat) :
    List.foldl rrStepO (some RRPhase.running) (List.replicate k Ev.attempt)
      = some RRPhase.running := by
  induction k with
  | zero => rfl
  | succ k ih => rw [List.replicate_succ, List.foldl_cons]; exact ih

/-- The session invariant tying the orchestrator state to the emitted
trace: the governor's consecutive-use counter equals the number of
dispatch attempts since the last counter reset, and the trace respects the
reset/read protocol, its phase matching `readUserInput` while the session
is live. -/
def SessionInv (s : SessionState) (t : List Ev) : Prop :=
  s.lp.consecutiveToolUses = attemptsSinceReset t ∧
  ((s.halted = false ∧ s.readUserInput = true ∧
      (rrFold t = some RRPhase.start ∨ rrFold t = some RRPhase.running)) ∨
   (s.halted = false ∧ s.readUserInput = false ∧ rrFold t = some RRPhase.running) ∨
   (s.halted = true ∧ (rrFold t).isSome))

theorem runStep_inv (exec : String → String → String × Bool) (s : SessionState)
    (it : LoopIter) (t : List Ev) (h : SessionInv s t) :
    SessionInv (runStep exec s it).1 (t ++ (runStep exec s it).2) := by
  obtain ⟨lp, conv, ru, hal⟩ := s
  obtain ⟨hcnt, hcase⟩ := h
  cases hal with
  | true =>
    simp only [runStep, if_pos rfl]
    exact ⟨by simpa using hcnt, by simpa using hcase⟩
  | false =>
    have hsome : (rrFold t).isSome := by
      rcases hcase with ⟨_, _, hp | hp⟩ | ⟨_, _, hp⟩ | ⟨hp, _⟩
      · rw [hp]; rfl
      · rw [hp]; rfl
      · rw [hp]; rfl
      · exact absurd hp (by simp)
    by_cases hdur : lp.maxSessionDurationSec < it.nowSec - lp.sessionStartTimeSec
    · simp only [runStep]
      rw [if_neg (by simp), if_pos hdur]
      exact ⟨by simpa using hcnt, Or.inr (Or.inr ⟨rfl, by simpa using hsome⟩)⟩
    · cases ru with
      | false =>
        have hrun : rrFold t = some RRPhase.running := by
          rcases hcase with ⟨_, hru, _⟩ | ⟨_, _, hp⟩ | ⟨hp, _⟩
          · exact absurd hru (by simp)
          · exact hp
          · exact absurd hp (by simp)
        simp only [runStep]
        rw [if_neg (by simp), if_neg hdur]
        constructor
        · simp only
          rw [processToolUsages_consecutive exec lp it.response,
            attemptsSinceReset_append, foldl_asr_replicate, hcnt]
        · refine ?_
          have hphase : rrFold (t ++ List.replicate
              (processToolUsages exec lp it.response).attempts Ev.attempt)
              = some RRPhase.running := by
            rw [rrFold_append, hrun, foldl_rr_replicate]
          cases hru : (processToolUsages exec lp it.response).readUserInput
          · exact Or.inr (Or.inl ⟨rfl, by simp [hru], hphase⟩)
          · exact Or.inl ⟨rfl, by simp [hru], Or.inr hphase⟩
      | true =>
        have hsr : rrFold t = some RRPhase.start ∨ rrFold t = some RRPhase.running := by
          rcases hcase with ⟨_, _, hp⟩ | ⟨_, hru, _⟩ | ⟨hp, _⟩
          · exact hp
          · exact absurd hru (by simp)
          · exact absurd hp (by simp)
        have hreset : rrStepO (rrFold t) Ev.reset = some RRPhase.afterReset := by
          rcases hsr with hp | hp <;> rw [hp] <;> rfl
        cases hu : it.userInput with
        | none =>
          simp only [runStep]
          rw [if_neg (by simp), if_neg hdur, hu]
          constructor
          · simp only [resetCounters]
            rw [attemptsSinceReset_append]
            rfl
          · refine Or.inr (Or.inr ⟨rfl, ?_⟩)
            rw [rrFold_append]
            simp only [List.foldl_cons, List.foldl_nil]
            rw [hreset]
            rfl
        | some u =>
          simp only [runStep]
          rw [if_neg (by simp), if_neg hdur, hu]
          constructor
          · simp only
            rw [processToolUsages_consecutive exec (resetCounters lp) it.response,
              attemptsSinceReset_append]
            simp only [List.foldl_cons]
            have : asrStep (asrStep (attemptsSinceReset t) Ev.reset) (Ev.inputRead u) = 0 := rfl
            rw [this, foldl_asr_replicate]
            rfl
          · have hphase : rrFold (t ++ (Ev.reset :: Ev.inputRead u :: List.replicate
                (processToolUsages exec (resetCounters lp) it.response).attempts Ev.attempt))
                = some RRPhase.running := by
              rw [rrFold_append]
              simp only [List.foldl_cons]
              rw [show List.foldl rrStepO (rrStepO (rrStepO (rrFold t) Ev.reset)
                  (Ev.inputRead u)) (List.replicate (processToolUsages exec
                  (resetCounters lp) it.response).attempts Ev.attempt)
                = List.foldl rrStepO (some RRPhase.running) (List.replicate
                  (processToolUsages exec (resetCounters lp) it.response).attempts
                  Ev.attempt) from by rw [hreset]; rfl]
              exact foldl_rr_replicate _
            cases hru : (processToolUsages exec (resetCounters lp) it.response).readUserInput
            · exact Or.inr (Or.inl ⟨rfl, by simp [hru], hphase⟩)
            · exact Or.inl ⟨rfl, by simp [hru], Or.inr hphase⟩

theorem runScript_inv (exec : String → String → String × Bool) :
    ∀ (script : List LoopIter) (s : SessionState) (t : List Ev), SessionInv s t →
      SessionInv (runScript exec s script).1 (t ++ (runScript exec s script).2) := by
  intro script
  induction script with
  | nil =>
    intro s t h
    simpa [runScript] using h
  | cons it rest ih =>
    intro s t h
    simp only [runScript]
    have h2 := ih (runStep exec s it).1 (t ++ (runStep exec s it).2)
      (runStep_inv exec s it t h)
    simpa [List.append_assoc] using h2

/-- **C2** — starting a session with a zeroed consecutive-use counter (as
`Run` does), after any finite run of the loop the governor's
consecutive-use counter equals the number of tool dispatch attempts since
the last counter reset in the emitted event trace; and the trace obeys the
reset/read protocol — exactly one counter reset immediately precedes every
user-input read, with at most a final lone reset at end-of-input — so the
reset occurs exactly once per user-input read. -/
theorem c2_consecutive_counter_invariant (exec : String → String → String × Bool)
    (lp0 : LoopProtection) (h0 : lp0.consecutiveToolUses = 0) (script : List LoopIter) :
    (runScript exec (initialSession lp0) script).1.lp.consecutiveToolUses
      = attemptsSinceReset (runScript exec (initialSession lp0) script).2 ∧
    (rrFold (runScript exec (initialSession lp0) script).2).isSome := by
  have hinv : SessionInv (initialSession lp0) [] :=
    ⟨by simpa [attemptsSinceReset] using h0, Or.inl ⟨rfl, rfl, Or.inl rfl⟩⟩
  have h := runScript_inv exec script (initialSession lp0) [] hinv
  rw [List.nil_append] at h
  refine ⟨h.1, ?_⟩
  rcases h.2 with ⟨_, _, hp | hp⟩ | ⟨_, _, hp⟩ | ⟨_, hp⟩
  · rw [hp]; rfl
  · rw [hp]; rfl
  · rw [hp]; rfl
  · exact hp

/-- Witness for C2: a two-iteration session — one user input, one tool
use, then end of input. -/
theorem c2_consecutive_counter_invariant_witness :
    (runScript (fun _ _ => ("ok", false)) (initialSession (NewLoopProtection 0))
        [⟨0, some "hi", [ContentBlock.toolUse "i1" "t" "{}" 0]⟩,
         ⟨1, none, []⟩]).1.lp.consecutiveToolUses
      = attemptsSinceReset (runScript (fun _ _ => ("ok", false))
          (initialSession (NewLoopProtection 0))
          [⟨0, some "hi", [ContentBlock.toolUse "i1" "t" "{}" 0]⟩, ⟨1, none, []⟩]).2 ∧
    (rrFold (runScript (fun _ _ => ("ok", false)) (initialSession (NewLoopProtection 0))
        [⟨0, some "hi", [ContentBlock.toolUse "i1" "t" "{}" 0]⟩, ⟨1, none, []⟩]).2).isSome :=
  c2_consecutive_counter_invariant (fun _ _ => ("ok", false)) (NewLoopProtection 0) rfl
    [⟨0, some "hi", [ContentBlock.toolUse "i1" "t" "{}" 0]⟩, ⟨1, none, []⟩]

end Metamorph
